import Mathlib

/-!
Verification of the plain-text format module of zim-desktop-wiki
(`zim/formats/plain.py`): the `Parser` class (bare-URL recognition over
normalized text) and the `Dumper` class (tree-to-text rendering of
headings, lists, links, images, tables and related constructs).

The module imports several collaborators that are not part of the
sources at hand (`zim.parse.fix_unicode_whitespace`,
`zim.parse.regexparser.RegexParser`, `zim.parse.links.old_url_link_re`,
`zim.formats.increase_list_iter`, `zim.formats.TableParser`, the
`DumperClass` walk and the tag-name constants).  Those parts are
modelled from the specification and are marked as such in their doc
comments.  Everything else is a direct translation of the Python code.
-/

namespace ZimPlain

/-- Attribute mappings of tree nodes: ordered association lists from
attribute names to string values, mirroring the Python `dict` of a
node. -/
abbrev Attrib := List (String × String)

/-- Dictionary lookup `attrib.get(k)`: the value of the first binding
of `k`, if any. -/
def aGet (a : Attrib) (k : String) : Option String :=
  (a.find? (fun p => p.1 = k)).map (fun p => p.2)

/-- Dictionary update `attrib[k] = v`: replace the first binding of `k`
or append a new one. -/
def aSet : Attrib → String → String → Attrib
  | [], k, v => [(k, v)]
  | (k', v') :: rest, k, v =>
      if k' = k then (k, v) :: rest else (k', v') :: aSet rest k v

/-- Parse trees: ordered rooted trees whose nodes are either literal
text runs or tagged elements with an attribute mapping and children. -/
inductive Node where
  | text (s : String)
  | elem (tag : String) (attrib : Attrib) (children : List Node)

/-- Modelled from the spec: the fixed tag vocabulary shared by all
dialects (`zim.formats` constants are not in the sources; the exact
strings are irrelevant, only their distinctness matters). -/
def FORMATTEDTEXT : String := "zim-tree"

def LINK : String := "link"

def HEADING : String := "h"

def BULLETLIST : String := "ul"

def NUMBEREDLIST : String := "ol"

def LISTITEM : String := "li"

def PARAGRAPH : String := "p"

def BLOCKDIV : String := "div"

def PREBLOCK : String := "pre"

def IMAGE : String := "img"

def ANCHOR : String := "anchor"

def LINE : String := "line"

/-- Modelled from the spec: the checkbox-state attribute values
(`zim.formats` constants, not in the sources). -/
def BULLET : String := "*"

def UNCHECKED_BOX : String := "unchecked-box"

def XCHECKED_BOX : String := "xchecked-box"

def CHECKED_BOX : String := "checked-box"

def MIGRATED_BOX : String := "migrated-box"

def TRANSMIGRATED_BOX : String := "transmigrated-box"

/-- The inline tags that the plain dumper renders with empty
prefix/suffix wrappers (the `TAGS` table of `Dumper`). -/
def TAGS : List String :=
  ["emphasis", "strong", "mark", "strike", "code", "tag", "sub", "sup", HEADING]

/-- The `BULLETS` glyph table of `Dumper`. -/
def BULLETS : List (String × String) :=
  [(UNCHECKED_BOX, "[ ]"),
   (XCHECKED_BOX, "[x]"),
   (CHECKED_BOX, "[*]"),
   (MIGRATED_BOX, "[>]"),
   (TRANSMIGRATED_BOX, "[<]"),
   (BULLET, "*")]

/-- Lookup in the `BULLETS` table (`attrib_value in BULLETS` and
`BULLETS[attrib_value]` in the Python code). -/
def bulletsGet (k : String) : Option String :=
  (BULLETS.find? (fun p => p.1 = k)).map (fun p => p.2)

/-- A string of `n` copies of character `c` (Python `c * n`). -/
def strRep (c : Char) (n : Nat) : String := String.mk (List.replicate n c)

/-- Python `str * int`: a negative count yields the empty string. -/
def tabs (i : Int) : String := strRep '\t' i.toNat

/-- Model of Python `int(s)` restricted to an optional minus sign and
decimal digits (the inputs the module applies it to). -/
def listVal10 (cs : List Char) : Nat :=
  cs.foldl (fun a c => 10 * a + (c.toNat - 48)) 0

def pyInt (s : String) : Option Int :=
  match s.toList with
  | '-' :: ds =>
      if ds ≠ [] ∧ ds.all Char.isDigit then some (-(Int.ofNat (listVal10 ds))) else none
  | ds =>
      if ds ≠ [] ∧ ds.all Char.isDigit then some (Int.ofNat (listVal10 ds)) else none

/-- Strip newline characters from both ends of a string
(Python `s.strip ( backslash n )` in `dump_h`). -/
def stripNewlines (s : String) : String :=
  String.mk (((s.toList.dropWhile (fun c => c = '\n')).reverse.dropWhile
    (fun c => c = '\n')).reverse)

/-- Split a string into its lines, each keeping its trailing newline
(Python `splitlines(True)` restricted to the newline separator). -/
def splitLinesKeepAux : List Char → List Char → List String
  | acc, [] => if acc.isEmpty then [] else [String.mk acc.reverse]
  | acc, c :: cs =>
      if c = '\n' then String.mk (c :: acc).reverse :: splitLinesKeepAux [] cs
      else splitLinesKeepAux (c :: acc) cs

def splitLinesKeep (s : String) : List String := splitLinesKeepAux [] s.toList

/-- Modelled from the spec: `DumperClass.prefix_lines` is not in the
sources; per the spec every line of the already rendered content is
prefixed. -/
def prefix_lines (pre : String) (strings : List String) : List String :=
  (splitLinesKeep (String.join strings)).map (fun l => pre ++ l)

/-- The `dump_indent` handler (also used for `p`, `div` and `pre`):
prefix every line with `indent` tabs when the attribute is present. -/
def dump_indent (attrib : Attrib) (strings : List String) : Option (List String) :=
  match aGet attrib "indent" with
  | some s => (pyInt s).map (fun i => prefix_lines (tabs i) strings)
  | none => some strings

/-- The `dump_h` handler: clamp the level to `[1,5]`, use setext-style
underlines for levels 1 and 2 and an atx-style hash prefix for levels
3 to 5. -/
def clampLevel (n : Int) : Int := if n < 1 then 1 else if n > 5 then 5 else n

def dump_h (attrib : Attrib) (strings : List String) : Option (List String) :=
  match (aGet attrib "level").bind pyInt with
  | none => none
  | some level0 =>
      let level : Int := clampLevel level0
      if level = 1 ∨ level = 2 then
        let c : Char := if level = 1 then '=' else '-'
        let heading := String.join strings
        let underline := strRep c (stripNewlines heading).length
        some [heading, underline ++ "\n"]
      else
        some ((strRep '#' level.toNat ++ " ") :: strings)

/-- The `dump_list` handler (used for both `ul` and `ol`): an explicit
`indent` attribute prefixes that many tabs, a list nested directly in a
list item gets one tab, otherwise the content passes through. -/
def dump_list (ctxTag : String) (attrib : Attrib) (strings : List String) :
    Option (List String) :=
  match aGet attrib "indent" with
  | some s => (pyInt s).map (fun i => prefix_lines (tabs i) strings)
  | none =>
      if ctxTag = LISTITEM then some (prefix_lines "\t" strings)
      else some strings

/-- The `dump_link` handler: `assert` on a missing `href`, else emit
the child strings when the list is non-empty, the href otherwise. -/
def dump_link (attrib : Attrib) (strings : List String) : Option (List String) :=
  match aGet attrib "href" with
  | none => none
  | some href => if strings.isEmpty then some [href] else some strings

/-- The `dump_img` handler: `attrib [ src ]` raises on a missing key;
the alt text is used when present and non-empty, else the source. -/
def dump_img (attrib : Attrib) (_strings : List String) : Option (List String) :=
  match aGet attrib "src" with
  | none => none
  | some src =>
      let text := match aGet attrib "alt" with
        | some al => if al = "" then src else al
        | none => src
      some [text]

/-- Little-endian decimal digits of a natural number, with explicit
fuel (any fuel above `n` is enough). -/
def natDigitsLE : Nat → Nat → List Nat
  | 0, _ => []
  | f + 1, n => if n = 0 then [] else n % 10 :: natDigitsLE f (n / 10)

/-- The character of a decimal digit. -/
def digitChar (d : Nat) : Char := Char.ofNat (48 + d)

/-- Decimal rendering of a natural number (what Python `str(int)`
produces). -/
def natToStr (n : Nat) : String :=
  if n = 0 then "0" else String.mk ((natDigitsLE (n + 1) n).reverse.map digitChar)

/-- Modelled from the spec: `increase_list_iter` from `zim.formats` is
not in the sources.  The spec describes an alphanumeric-aware
increment (decimal numbers count up; letter sequences also advance)
returning `None` on values it cannot advance.  Decimal strings are
incremented numerically; a lower-case letter string is advanced in its
last letter; anything else is rejected. -/
def increase_list_iter (s : String) : Option String :=
  if s ≠ "" ∧ s.toList.all Char.isDigit then
    some (natToStr (listVal10 s.toList + 1))
  else if s ≠ "" ∧ s.toList.all (fun c => 'a' ≤ c ∧ c ≤ 'y') then
    some (String.mk (s.toList.dropLast ++
      [Char.ofNat ((s.toList.getLastD 'a').toNat + 1)]))
  else none

/-- The next stored counter value, the Python expression
`increase_list_iter(iter) or '1'` (a falsy increment falls back to
`"1"`). -/
def nextIter (it : String) : String :=
  match increase_list_iter it with
  | some s => if s = "" then "1" else s
  | none => "1"

/-- The counter value rendered for the item `i` places after a first
item whose counter is `st`: the `i`-fold application of the stored
increment `nextIter`. -/
def iterFrom (st : String) : Nat → String
  | 0 => st
  | i + 1 => iterFrom (nextIter st) i

/-- The numbered-list branch of `dump_li`: take the running `_iter`
counter from the parent list's attributes (falling back to `start`,
default `"1"`, when it is absent or empty), render it with a dot, and
store the incremented counter (`increase_list_iter(iter) or '1'`,
that is `nextIter`) back into the parent's attributes. -/
def dump_li_numbered (parentAttrib : Attrib) (strings : List String) :
    List String × Attrib :=
  let iter0 : Option String :=
    match aGet parentAttrib "_iter" with
    | some s => if s = "" then none else some s
    | none => none
  let iter := iter0.getD ((aGet parentAttrib "start").getD "1")
  let bullet := iter ++ "."
  (bullet :: " " :: strings, aSet parentAttrib "_iter" (nextIter iter))

/-- The `dump_li` handler.  The bullet depends on the parent context:
a recognized glyph under a bulleted list, the running counter under a
numbered list, and otherwise the fallback that reads the item's own
`bullet` attribute (note the fallback indexes `attrib [ bullet ]`
directly) and applies an optional `indent` prefix.  The returned
attribute mapping is the (possibly updated) parent attribute
mapping. -/
def dump_li (parentTag : String) (parentAttrib : Attrib) (attrib : Attrib)
    (strings : List String) : Option (List String × Attrib) :=
  if parentTag = BULLETLIST then
    let bullet :=
      match aGet attrib "bullet" with
      | some b =>
          match bulletsGet b with
          | some g => g
          | none => (bulletsGet BULLET).getD "*"
      | none => (bulletsGet BULLET).getD "*"
    some (bullet :: " " :: strings, parentAttrib)
  else if parentTag = NUMBEREDLIST then
    some (dump_li_numbered parentAttrib strings)
  else
    let b0 := (aGet attrib "bullet").getD BULLET
    let step1 : Option String :=
      if (bulletsGet b0).isSome then
        match aGet attrib "bullet" with
        | none => none
        | some bb => bulletsGet bb
      else some b0
    match step1 with
    | none => none
    | some bullet =>
        let step2 : Option String :=
          match aGet attrib "indent" with
          | none => some bullet
          | some s => (pyInt s).map (fun i => tabs i ++ bullet)
        match step2 with
        | none => none
        | some bullet2 => some (bullet2 :: " " :: strings, parentAttrib)

/-- A string of `n` spaces. -/
def spaces (n : Nat) : String := strRep ' ' n

/-- Split a string on newline characters, not keeping them; the result
always has at least one element (Python `split` semantics). -/
def splitNLAux : List Char → List Char → List String
  | acc, [] => [String.mk acc.reverse]
  | acc, c :: cs =>
      if c = '\n' then String.mk acc.reverse :: splitNLAux [] cs
      else splitNLAux (c :: acc) cs

def splitNL (s : String) : List String := splitNLAux [] s.toList

/-- Split a string on commas (for the `aligns` table attribute). -/
def splitCommaAux : List Char → List Char → List String
  | acc, [] => [String.mk acc.reverse]
  | acc, c :: cs =>
      if c = ',' then String.mk acc.reverse :: splitCommaAux [] cs
      else splitCommaAux (c :: acc) cs

def splitComma (s : String) : List String := splitCommaAux [] s.toList

/-- Modelled from the spec: `TableParser.get_options` is not in the
sources; it computes the per-column alignment directives from the
table's attributes. -/
def get_options (attrib : Attrib) : List String :=
  splitComma ((aGet attrib "aligns").getD "")

/-- Modelled from the spec: `TableParser.convert_to_multiline_cells`
is not in the sources; each row's cells are split on embedded line
breaks and regrouped into aligned sub-rows padded with empty cells. -/
def convertRow (row : List String) : List (List String) :=
  let cells := row.map splitNL
  let h := (cells.map List.length).foldr max 0
  (List.range h).map (fun i => cells.map (fun ls => ls.getD i ""))

def convert_to_multiline_cells (strings : List (List String)) :
    List (List (List String)) :=
  strings.map convertRow

/-- Pointwise maximum of recorded column widths against a row of
cells, extending the width list as needed. -/
def zipMax : List Nat → List String → List Nat
  | ws, [] => ws
  | [], c :: cs => c.length :: zipMax [] cs
  | w :: ws, c :: cs => max w c.length :: zipMax ws cs

/-- Modelled from the spec: `TableParser.width3dim` is not in the
sources; it computes the maximum rendered width per column across all
expanded rows. -/
def width3dim (rows : List (List (List String))) : List Nat :=
  rows.foldl (fun acc row => row.foldl zipMax acc) []

/-- Join strings with a separator. -/
def joinSep (sep : String) : List String → String
  | [] => ""
  | [s] => s
  | s :: s2 :: rest => s ++ sep ++ joinSep sep (s2 :: rest)

/-- Modelled from the spec: a table cell padded to its column's width
according to the column's alignment, with one space of margin on each
side. -/
def cellRender (c : String) (w : Nat) (al : String) : String :=
  let padN := w - c.length
  let padded :=
    if al = "right" then spaces padN ++ c
    else if al = "center" then spaces (padN / 2) ++ c ++ spaces (padN - padN / 2)
    else c ++ spaces padN
  " " ++ padded ++ " "

/-- Render the cells of one line against the column widths and
alignment directives (missing directives default to left). -/
def rowcells : List String → List Nat → List String → List String
  | [], _, _ => []
  | _ :: _, [], _ => []
  | c :: cs, w :: ws, [] => cellRender c w "left" :: rowcells cs ws []
  | c :: cs, w :: ws, al :: als => cellRender c w al :: rowcells cs ws als

/-- Modelled from the spec: `TableParser.rowline`, a data line with
cells joined by pipes. -/
def rowline (row : List String) (ws : List Nat) (als : List String) : String :=
  "|" ++ joinSep "|" (rowcells row ws als) ++ "|"

/-- Modelled from the spec: `TableParser.rowsep`, a separator line of
`x`-joined runs of `y` spanning each column plus its margins. -/
def rowsep (ws : List Nat) (x : Char) (y : Char) : String :=
  String.singleton x ++
    joinSep (String.singleton x) (ws.map (fun n => strRep y (n + 2))) ++
    String.singleton x

/-- The `dump_table` handler: separator, header lines, `=`-separator,
then each body row's lines followed by a `-`-separator; every line gets
a trailing newline.  The Python code indexes `rows[0]` and so fails on
an empty row list. -/
def dump_table (attrib : Attrib) (strings : List (List String)) :
    Option (List String) :=
  let aligns := get_options attrib
  let rows := convert_to_multiline_cells strings
  let mw := width3dim rows
  match rows with
  | [] => none
  | hdr :: body =>
      let table :=
        rowsep mw '+' '-' :: hdr.map (fun l => rowline l mw aligns)
          ++ rowsep mw '+' '=' ::
            body.flatMap (fun row =>
              row.map (fun l => rowline l mw aligns) ++ [rowsep mw '+' '-'])
      some (table.map (fun l => l ++ "\n"))

/-- The `dump_td` handler: the joined cell content (shared by `th`). -/
def dump_td (strings : List String) : List String := [String.join strings]

/-- The `dump_line` handler: a horizontal rule of twenty dashes. -/
def dump_line : List String := [strRep '-' 20 ++ "\n"]

/-- Modelled from the spec: `fix_unicode_whitespace` from `zim.parse`
is not in the sources; the spec requires non-standard space and
line-separator characters to be replaced by canonical equivalents
before pattern matching.  The unicode line and paragraph separators
become a newline and the no-break space becomes a plain space. -/
def fix_unicode_whitespace (s : String) : String :=
  String.mk (s.toList.map (fun c =>
    if c = '\u2028' ∨ c = '\u2029' then '\n'
    else if c = '\u00A0' then ' ' else c))

/-- Modelled from the spec: `old_url_link_re` from `zim.parse.links`
is not in the sources; it recognizes legacy bare URLs.  A match at the
current position is an alphabetic scheme, the literal `://`, and a
non-empty run of non-whitespace characters.  On success the matched
characters and the remaining characters are returned. -/
def urlMatchAt (cs : List Char) : Option (List Char × List Char) :=
  let scheme := cs.takeWhile Char.isAlpha
  match cs.dropWhile Char.isAlpha with
  | ':' :: '/' :: '/' :: rest2 =>
      let body := rest2.takeWhile (fun c => ¬ c.isWhitespace)
      if scheme.isEmpty ∨ body.isEmpty then none
      else some (scheme ++ ':' :: '/' :: '/' :: body,
        rest2.dropWhile (fun c => ¬ c.isWhitespace))
  | _ => none

/-- The earliest URL match in the text: the literal text before the
match, the matched text, and the remaining text. -/
def findMatch : List Char → Option (List Char × List Char × List Char)
  | [] => none
  | c :: cs =>
      match urlMatchAt (c :: cs) with
      | some (m, r) => some ([], m, r)
      | none =>
          match findMatch cs with
          | some (b, m, r) => some (c :: b, m, r)
          | none => none

/-- The `parse_url` rule callback: append a `link` node whose `href`
and text are the matched text. -/
def parse_url_node (m : String) : Node :=
  Node.elem LINK [("href", m)] [Node.text m]

/-- Modelled from the spec: the `RegexParser` engine loop from
`zim.parse.regexparser` is not in the sources.  Per the spec it scans
left to right, emits the text before the earliest match as a literal
run, invokes the rule callback on the match, continues after it, and
emits the tail as a final literal run.  Fuel bounds the recursion; any
fuel above the text length is enough, and the fuel-exhausted fallback
emits the remaining text as a literal run. -/
def regexRunF : Nat → List Char → List Node
  | 0, cs => [Node.text (String.mk cs)]
  | f + 1, cs =>
      match findMatch cs with
      | none => [Node.text (String.mk cs)]
      | some (b, m, r) =>
          (if b.isEmpty then [] else [Node.text (String.mk b)])
            ++ parse_url_node (String.mk m) :: regexRunF f r

/-- `Parser.parse`: normalize whitespace, then run the engine with the
single bare-URL rule inside a `zim-tree` root (an empty input yields no
children at all). -/
def parse (input : String) : Node :=
  let i2 := fix_unicode_whitespace input
  Node.elem FORMATTEDTEXT []
    (if i2.isEmpty then [] else regexRunF (i2.toList.length + 1) i2.toList)

/-- `Parser.parse` on a sequence of fragments: concatenate, then
parse. -/
def parseFragments (fragments : List String) : Node :=
  parse (String.join fragments)

/-- Dispatch a dumped node's tag to its handler, in the presence of
the parent context entry (tag and attributes).  Returns the rendered
strings and the possibly updated parent attributes (only `dump_li`
under a numbered list updates them).  Tags without a plain-text
handler fail; table tags are handled separately (`dump_table`) because
their row structure does not flow through the string outputs. -/
def applyHandler (parentTag : String) (parentAttrib : Attrib) (tag : String)
    (attrib : Attrib) (strings : List String) :
    Option (List String × Attrib) :=
  if tag = FORMATTEDTEXT then some (strings, parentAttrib)
  else if tag = HEADING then (dump_h attrib strings).map (fun o => (o, parentAttrib))
  else if tag = PARAGRAPH ∨ tag = BLOCKDIV ∨ tag = PREBLOCK then
    (dump_indent attrib strings).map (fun o => (o, parentAttrib))
  else if tag = BULLETLIST ∨ tag = NUMBEREDLIST then
    (dump_list parentTag attrib strings).map (fun o => (o, parentAttrib))
  else if tag = LISTITEM then dump_li parentTag parentAttrib attrib strings
  else if tag = LINK then (dump_link attrib strings).map (fun o => (o, parentAttrib))
  else if tag = IMAGE then (dump_img attrib strings).map (fun o => (o, parentAttrib))
  else if tag = ANCHOR then some ([], parentAttrib)
  else if tag = LINE then some (dump_line, parentAttrib)
  else if tag ∈ TAGS then some (strings, parentAttrib)
  else none

/-- Walk a list of sibling nodes with a child-dumping function,
threading the parent's attribute mapping through the children (the
Python dumper mutates `self.context[-1].attrib`). -/
def dumpKidsWith (g : Attrib → Node → Option (List String × Attrib × Node)) :
    Attrib → List Node → Option (List String × Attrib × List Node)
  | a, [] => some ([], a, [])
  | a, c :: cs =>
      match g a c with
      | none => none
      | some (s1, a1, c1) =>
          match dumpKidsWith g a1 cs with
          | none => none
          | some (s2, a2, cs2) => some (s1 ++ s2, a2, c1 :: cs2)

/-- Modelled from the spec: the `DumperClass` walk is not in the
sources.  Per the spec it is a single-pass depth-first post-order walk:
children are rendered first, then the node's handler runs with the
rendered child strings and read/write access to the parent context
entry.  The counter state written by `dump_li` lives in the list
node's own attribute mapping, so the walk returns the updated tree.
Fuel bounds the recursion; it strictly exceeds the tree depth at every
call from `dumpTree`. -/
def dumpChildF : Nat → String → Attrib → Node →
    Option (List String × Attrib × Node)
  | 0, _, _, _ => none
  | _ + 1, _, parentAttrib, Node.text s => some ([s], parentAttrib, Node.text s)
  | f + 1, parentTag, parentAttrib, Node.elem t a cs =>
      match dumpKidsWith (fun a' c => dumpChildF f t a' c) a cs with
      | none => none
      | some (strs, a2, cs2) =>
          match applyHandler parentTag parentAttrib t a2 strs with
          | none => none
          | some (out, pa2) => some (out, pa2, Node.elem t a2 cs2)

mutual

/-- The number of nodes of a tree, used as recursion fuel for the
dump walk (it strictly exceeds the tree depth). -/
def nodeSize : Node → Nat
  | Node.text _ => 1
  | Node.elem _ _ cs => 1 + nodeListSize cs

def nodeListSize : List Node → Nat
  | [] => 0
  | c :: cs => nodeSize c + nodeListSize cs

end

/-- Dump a whole tree: the rendered strings and the updated tree. -/
def dumpTree (t : Node) : Option (List String × Node) :=
  (dumpChildF (nodeSize t + 2) "" [] t).map (fun x => (x.1, x.2.2))

/-- The joined textual output of dumping a tree. -/
def dumpString (t : Node) : Option String :=
  (dumpTree t).map (fun x => String.join x.1)

/-- Little-endian value of a list of decimal digits (specification
device for reasoning about `natDigitsLE`). -/
def lval : List Nat → Nat
  | [] => 0
  | d :: L => d + 10 * lval L

/-- Dumping the successive list items of one numbered list: the walk
over the `li` children of an `ol` node, threading the parent's
attribute mapping through `dump_li` exactly as `dumpKidsWith` does.
Each item is given by its own attributes and its rendered content. -/
def dumpItems (parentAttrib : Attrib) :
    List (Attrib × List String) → Option (List (List String) × Attrib)
  | [] => some ([], parentAttrib)
  | (a, strs) :: rest => do
      let (out, pa2) ← dump_li NUMBEREDLIST parentAttrib a strs
      let (outs, pa3) ← dumpItems pa2 rest
      pure (out :: outs, pa3)

/-- The output shape of the plain-text parse: a node is either a
literal text run or a bare-URL link node whose href and text are the
matched text. -/
def goodNode (nd : Node) : Prop :=
  (∃ s, nd = Node.text s) ∨
  ∃ u, nd = Node.elem LINK [("href", u)] [Node.text u]

/-- Trees containing no numbered-list element. -/
inductive NoOl : Node → Prop
  | text (s : String) : NoOl (Node.text s)
  | elem (t : String) (a : Attrib) (cs : List Node) :
      t ≠ NUMBEREDLIST → (∀ c ∈ cs, NoOl c) → NoOl (Node.elem t a cs)

/-! Theorems -/

/-- C2: for every heading node dumped by the plain-text `Dumper`, the
level attribute is clamped to the range `[1,5]`; for level 1 the output
is the rendered heading text followed by a line of `=` whose length
equals the newline-trimmed heading text's length; for level 2 likewise
with `-`; for levels 3 through 5 the output is `#` repeated `level`
times, a space, then the heading text. -/
theorem dump_h_clamped_styles (lv : String) (n : Int) (strs : List String)
    (hlv : pyInt lv = some n) :
    (1 ≤ clampLevel n ∧ clampLevel n ≤ 5) ∧
    (clampLevel n = 1 → dump_h [("level", lv)] strs =
      some [String.join strs,
        strRep '=' (stripNewlines (String.join strs)).length ++ "\n"]) ∧
    (clampLevel n = 2 → dump_h [("level", lv)] strs =
      some [String.join strs,
        strRep '-' (stripNewlines (String.join strs)).length ++ "\n"]) ∧
    (3 ≤ clampLevel n → dump_h [("level", lv)] strs =
      some ((strRep '#' (clampLevel n).toNat ++ " ") :: strs)) := by
  have hget : (aGet [("level", lv)] "level").bind pyInt = some n := by
    simp [aGet, hlv]
  refine ⟨by unfold clampLevel; split_ifs <;> omega, ?_, ?_, ?_⟩
  · intro hl
    simp [dump_h, hget, hl]
  · intro hl
    simp [dump_h, hget, hl]
  · intro hl
    have h1 : clampLevel n ≠ 1 := by omega
    have h2 : clampLevel n ≠ 2 := by omega
    simp [dump_h, hget, h1, h2]

theorem dump_h_clamped_styles_witness :
    (pyInt "7" = some 7 ∧ clampLevel 7 = 5 ∧
      dump_h [("level", "7")] ["Title\n"] =
        some ((strRep '#' (clampLevel 7).toNat ++ " ") :: ["Title\n"])) ∧
    (pyInt "1" = some 1 ∧
      dump_h [("level", "1")] ["Title\n"] =
        some [String.join ["Title\n"],
          strRep '=' (stripNewlines (String.join ["Title\n"])).length ++ "\n"]) ∧
    (pyInt "2" = some 2 ∧
      dump_h [("level", "2")] ["Title\n"] =
        some [String.join ["Title\n"],
          strRep '-' (stripNewlines (String.join ["Title\n"])).length ++ "\n"]) :=
  ⟨⟨by decide, by decide,
      (dump_h_clamped_styles "7" 7 ["Title\n"] (by decide)).2.2.2 (by decide)⟩,
   ⟨by decide,
      (dump_h_clamped_styles "1" 1 ["Title\n"] (by decide)).2.1 (by decide)⟩,
   ⟨by decide,
      (dump_h_clamped_styles "2" 2 ["Title\n"] (by decide)).2.2.1 (by decide)⟩⟩

/-- C4 counterexample: a link node with an `href` and a single empty
text child dumps to the empty string, not to the href, although the
node has no non-empty child text. -/
theorem dump_link_empty_child_counterexample :
    dump_link [("href", "http://example.com")] [""] = some [""] ∧
    String.join [""] = "" ∧ ("" : String) ≠ "http://example.com" :=
  ⟨by decide, by decide, by decide⟩

/-- C4 amended: dumping a link node fails if and only if the node has
no `href` attribute; when `href` is present the output equals the
rendered child strings whenever the child-string list is non-empty
(even if all its strings are empty), and equals the href value when the
list is empty. -/
theorem dump_link_href_contract (attrib : Attrib) (strings : List String) :
    (dump_link attrib strings = none ↔ aGet attrib "href" = none) ∧
    (∀ href, aGet attrib "href" = some href →
      dump_link attrib strings =
        some (if strings.isEmpty then [href] else strings)) := by
  constructor
  · unfold dump_link
    cases h : aGet attrib "href" <;> simp [h]
    split <;> simp
  · intro href h
    simp only [dump_link, h]
    split <;> simp

theorem dump_link_href_contract_witness :
    (aGet [("href", "http://example.com")] "href" = some "http://example.com" ∧
      dump_link [("href", "http://example.com")] [] = some ["http://example.com"] ∧
      dump_link [("href", "http://example.com")] ["click here"] = some ["click here"]) ∧
    dump_link [] ["click here"] = none := by
  refine ⟨⟨by decide, ?_, ?_⟩, ?_⟩
  · have h := (dump_link_href_contract [("href", "http://example.com")] []).2
      "http://example.com" (by decide)
    rw [h]; decide
  · have h := (dump_link_href_contract [("href", "http://example.com")]
      ["click here"]).2 "http://example.com" (by decide)
    rw [h]; decide
  · have h := (dump_link_href_contract [] ["click here"]).1
    rw [h]; decide

/-- C10: dumping an image node requires the `src` attribute
unconditionally; even when an `alt` attribute is present, a node
lacking `src` fails rather than producing the alt text, and when both
are present the (non-empty) alt text is what gets emitted. -/
theorem dump_img_requires_src (attrib : Attrib) (strings : List String) :
    (aGet attrib "src" = none → dump_img attrib strings = none) ∧
    (∀ src al, aGet attrib "src" = some src → aGet attrib "alt" = some al →
      al ≠ "" → dump_img attrib strings = some [al]) := by
  constructor
  · intro h
    unfold dump_img
    rw [h]
  · intro src al hs ha hne
    unfold dump_img
    rw [hs, ha]
    simp [hne]

theorem dump_img_requires_src_witness :
    (aGet [("alt", "alt text")] "src" = none ∧
      dump_img [("alt", "alt text")] [] = none) ∧
    (dump_img [("src", "pic.png"), ("alt", "alt text")] [] = some ["alt text"]) :=
  ⟨⟨by decide, (dump_img_requires_src [("alt", "alt text")] []).1 (by decide)⟩,
   (dump_img_requires_src [("src", "pic.png"), ("alt", "alt text")] []).2
     "pic.png" "alt text" (by decide) (by decide) (by decide)⟩

/-- C7: the fallback branch of `dump_li` (parent context neither a
bulleted nor a numbered list) crashes with a key error when the item
carries no `bullet` attribute at all, because after defaulting the
bullet to `BULLET` it indexes the attribute mapping directly; with a
`bullet` attribute present, both the glyph mapping and the
already-rendered numbered fallback work as described. -/
theorem dump_li_fallback_missing_bullet_fails :
    dump_li FORMATTEDTEXT [] [] ["content\n"] = none ∧
    dump_li FORMATTEDTEXT [] [("bullet", "7.")] ["content\n"] =
      some (["7.", " ", "content\n"], []) ∧
    dump_li FORMATTEDTEXT [] [("bullet", CHECKED_BOX)] ["content\n"] =
      some (["[*]", " ", "content\n"], []) ∧
    dump_li FORMATTEDTEXT [] [("bullet", CHECKED_BOX), ("indent", "2")]
      ["content\n"] = some (["\t\t[*]", " ", "content\n"], []) :=
  ⟨by decide, by decide, by decide, by decide⟩

/-- C6: for every list node being dumped, an `indent` attribute
prefixes every line of the rendered content with that many tab
characters; otherwise a parent list-item context prefixes every line
with exactly one tab; otherwise the content passes through
unchanged. -/
theorem dump_list_indentation (ctxTag : String) (attrib : Attrib)
    (strings : List String) :
    (∀ s i, aGet attrib "indent" = some s → pyInt s = some i →
      dump_list ctxTag attrib strings =
        some ((splitLinesKeep (String.join strings)).map (fun l => tabs i ++ l)) ∧
      ∀ l ∈ (splitLinesKeep (String.join strings)).map (fun l => tabs i ++ l),
        ∃ rest, l = tabs i ++ rest) ∧
    (aGet attrib "indent" = none → ctxTag = LISTITEM →
      dump_list ctxTag attrib strings =
        some ((splitLinesKeep (String.join strings)).map (fun l => "\t" ++ l)) ∧
      ∀ l ∈ (splitLinesKeep (String.join strings)).map (fun l => "\t" ++ l),
        ∃ rest, l = "\t" ++ rest) ∧
    (aGet attrib "indent" = none → ctxTag ≠ LISTITEM →
      dump_list ctxTag attrib strings = some strings) := by
  refine ⟨?_, ?_, ?_⟩
  · intro s i hs hi
    constructor
    · simp [dump_list, hs, hi, prefix_lines]
    · intro l hl
      obtain ⟨l', _, rfl⟩ := List.mem_map.mp hl
      exact ⟨l', rfl⟩
  · intro hs hctx
    constructor
    · simp [dump_list, hs, hctx, prefix_lines]
    · intro l hl
      obtain ⟨l', _, rfl⟩ := List.mem_map.mp hl
      exact ⟨l', rfl⟩
  · intro hs hctx
    simp only [dump_list, hs, if_neg hctx]

theorem dump_list_indentation_witness :
    (dump_list FORMATTEDTEXT [("indent", "2")] ["* a\n* b\n"] =
      some ["\t\t* a\n", "\t\t* b\n"]) ∧
    (dump_list LISTITEM [] ["* a\n* b\n"] = some ["\t* a\n", "\t* b\n"]) ∧
    (dump_list FORMATTEDTEXT [] ["* a\n* b\n"] = some ["* a\n* b\n"]) := by
  refine ⟨?_, ?_, ?_⟩
  · have h := ((dump_list_indentation FORMATTEDTEXT [("indent", "2")]
      ["* a\n* b\n"]).1 "2" 2 (by decide) (by decide)).1
    rw [h]; decide
  · have h := ((dump_list_indentation LISTITEM [] ["* a\n* b\n"]).2.1
      (by decide) rfl).1
    rw [h]; decide
  · exact (dump_list_indentation FORMATTEDTEXT [] ["* a\n* b\n"]).2.2
      (by decide) (by decide)

theorem lval_natDigitsLE : ∀ f n, n < f → lval (natDigitsLE f n) = n := by
  intro f
  induction f with
  | zero => intro n h; omega
  | succ f ih =>
      intro n h
      by_cases h0 : n = 0
      · subst h0; simp [natDigitsLE, lval]
      · have hdiv : n / 10 < f := by
          have h1 : n / 10 < n := Nat.div_lt_self (by omega) (by omega)
          omega
        simp only [natDigitsLE, if_neg h0, lval, ih (n / 10) hdiv]
        omega

theorem natDigitsLE_lt_ten : ∀ f n d, d ∈ natDigitsLE f n → d < 10 := by
  intro f
  induction f with
  | zero => intro n d h; simp [natDigitsLE] at h
  | succ f ih =>
      intro n d h
      by_cases h0 : n = 0
      · subst h0; simp [natDigitsLE] at h
      · simp only [natDigitsLE, if_neg h0, List.mem_cons] at h
        rcases h with h | h
        · subst h; exact Nat.mod_lt _ (by omega)
        · exact ih _ _ h

theorem natDigitsLE_ne_nil (f n : Nat) (hf : 0 < f) (hn : 0 < n) :
    natDigitsLE f n ≠ [] := by
  cases f with
  | zero => omega
  | succ f => simp [natDigitsLE, Nat.pos_iff_ne_zero.mp hn]

theorem isDigit_digitChar (d : Nat) (h : d < 10) : (digitChar d).isDigit := by
  interval_cases d <;> decide

theorem toNat_digitChar (d : Nat) (h : d < 10) : (digitChar d).toNat - 48 = d := by
  interval_cases d <;> decide

theorem foldl_digits (L : List Nat) (hL : ∀ d ∈ L, d < 10) (a : Nat) :
    List.foldl (fun a c => 10 * a + (c.toNat - 48)) a (L.reverse.map digitChar) =
      a * 10 ^ L.length + lval L := by
  induction L generalizing a with
  | nil => simp [lval]
  | cons d L ih =>
      have hd : d < 10 := hL d (List.mem_cons_self d L)
      have hL' : ∀ d ∈ L, d < 10 := fun x hx => hL x (List.mem_cons_of_mem d hx)
      simp only [List.reverse_cons, List.map_append, List.foldl_append,
        List.map_cons, List.map_nil, List.foldl_cons, List.foldl_nil,
        ih hL', lval, List.length_cons]
      rw [toNat_digitChar d hd]
      ring

theorem natToStr_toList (n : Nat) (hn : n ≠ 0) :
    (natToStr n).toList = (natDigitsLE (n + 1) n).reverse.map digitChar := by
  simp [natToStr, hn]

theorem natToStr_all_digits (n : Nat) :
    (natToStr n).toList.all Char.isDigit = true := by
  by_cases hn : n = 0
  · subst hn; decide
  · rw [natToStr_toList n hn]
    rw [List.all_eq_true]
    intro c hc
    rw [List.mem_map] at hc
    obtain ⟨d, hd, rfl⟩ := hc
    rw [List.mem_reverse] at hd
    exact isDigit_digitChar d (natDigitsLE_lt_ten _ _ _ hd)

theorem natToStr_ne_empty (n : Nat) : natToStr n ≠ "" := by
  by_cases hn : n = 0
  · subst hn; decide
  · intro h
    have h2 := congrArg String.toList h
    rw [natToStr_toList n hn] at h2
    have h3 : (natDigitsLE (n + 1) n).reverse.map digitChar = [] := h2
    rw [List.map_eq_nil_iff, List.reverse_eq_nil_iff] at h3
    exact natDigitsLE_ne_nil (n + 1) n (by omega) (by omega) h3

theorem listVal10_natToStr (n : Nat) : listVal10 (natToStr n).toList = n := by
  by_cases hn : n = 0
  · subst hn; decide
  · rw [natToStr_toList n hn]
    unfold listVal10
    rw [foldl_digits _ (fun d hd => natDigitsLE_lt_ten _ _ _ hd) 0]
    rw [lval_natDigitsLE (n + 1) n (by omega)]
    omega

theorem increase_natToStr (n : Nat) :
    increase_list_iter (natToStr n) = some (natToStr (n + 1)) := by
  unfold increase_list_iter
  rw [if_pos ⟨natToStr_ne_empty n, natToStr_all_digits n⟩]
  rw [listVal10_natToStr]

theorem nextIter_ne_empty (it : String) : nextIter it ≠ "" := by
  unfold nextIter
  cases h : increase_list_iter it with
  | none => decide
  | some s =>
      dsimp only
      split_ifs with hs
      · decide
      · exact hs

theorem aGet_aSet (a : Attrib) (k v : String) : aGet (aSet a k v) k = some v := by
  induction a with
  | nil => simp [aSet, aGet]
  | cons p rest ih =>
      by_cases h : p.1 = k
      · simp [aSet, aGet, h]
      · simpa [aSet, aGet, h, List.find?] using ih

theorem dump_li_numbered_branch (pa a : Attrib) (strs : List String) :
    dump_li NUMBEREDLIST pa a strs = some (dump_li_numbered pa strs) := by
  unfold dump_li
  rw [if_neg (by decide), if_pos rfl]

theorem dumpItems_total : ∀ (items : List (Attrib × List String)) (pa : Attrib),
    ∃ r, dumpItems pa items = some r := by
  intro items
  induction items with
  | nil => intro pa; exact ⟨([], pa), rfl⟩
  | cons p rest ih =>
      intro pa
      obtain ⟨a, strs⟩ := p
      obtain ⟨r, hr⟩ := ih (dump_li_numbered pa strs).2
      refine ⟨((dump_li_numbered pa strs).1 :: r.1, r.2), ?_⟩
      simp [dumpItems, dump_li_numbered_branch, hr]

theorem dumpItems_counter :
    ∀ (items : List (Attrib × List String)) (pa : Attrib) (m : Nat),
    aGet pa "_iter" = some (natToStr m) →
    ∃ pa2, dumpItems pa items =
      some (items.mapIdx
        (fun i p => (natToStr (m + i) ++ ".") :: " " :: p.2), pa2) := by
  intro items
  induction items with
  | nil => intro pa m _; exact ⟨pa, rfl⟩
  | cons p rest ih =>
      intro pa m hiter
      obtain ⟨a, strs⟩ := p
      have hne : natToStr m ≠ "" := natToStr_ne_empty m
      have hli : dump_li_numbered pa strs =
          ((natToStr m ++ ".") :: " " :: strs,
            aSet pa "_iter" (natToStr (m + 1))) := by
        simp [dump_li_numbered, nextIter, hiter, hne, increase_natToStr,
          natToStr_ne_empty]
      obtain ⟨pa2, hrest⟩ := ih (aSet pa "_iter" (natToStr (m + 1))) (m + 1)
        (aGet_aSet pa "_iter" (natToStr (m + 1)))
      have hfun : (fun i (p : Attrib × List String) =>
            (natToStr (m + 1 + i) ++ ".") :: " " :: p.2)
          = (fun i (p : Attrib × List String) =>
            (natToStr (m + (i + 1)) ++ ".") :: " " :: p.2) := by
        funext i p
        have h : m + 1 + i = m + (i + 1) := by omega
        rw [h]
      rw [hfun] at hrest
      refine ⟨pa2, ?_⟩
      simp [dumpItems, dump_li_numbered_branch, hli, hrest, List.mapIdx_cons]

theorem dumpItems_chain :
    ∀ (items : List (Attrib × List String)) (pa : Attrib) (cur : String),
    cur ≠ "" → aGet pa "_iter" = some cur →
    ∃ pa2, dumpItems pa items =
      some (items.mapIdx
        (fun i p => (iterFrom cur i ++ ".") :: " " :: p.2), pa2) := by
  intro items
  induction items with
  | nil => intro pa cur _ _; exact ⟨pa, rfl⟩
  | cons p rest ih =>
      intro pa cur hne hiter
      obtain ⟨a, strs⟩ := p
      have hli : dump_li_numbered pa strs =
          ((cur ++ ".") :: " " :: strs, aSet pa "_iter" (nextIter cur)) := by
        simp [dump_li_numbered, hiter, hne]
      obtain ⟨pa2, hrest⟩ := ih (aSet pa "_iter" (nextIter cur)) (nextIter cur)
        (nextIter_ne_empty cur) (aGet_aSet pa "_iter" (nextIter cur))
      refine ⟨pa2, ?_⟩
      simp [dumpItems, dump_li_numbered_branch, hli, hrest, List.mapIdx_cons,
        iterFrom]

/-- C3: for every numbered-list node, dumping its items renders the
first bullet from the declared `start` value (default `"1"`) followed
by a dot, and each subsequent bullet as the increment of the previous
counter value (`iterFrom`, iterating the stored increment) followed by
a dot; in particular `N` items with `start` unset get the bullets
`"1."`, `"2."`, ..., `"N."` in order. -/
theorem numbered_list_bullets (items : List (Attrib × List String))
    (pa : Attrib) (hiter : aGet pa "_iter" = none) :
    (aGet pa "start" = none →
      ∃ pa2, dumpItems pa items =
        some (items.mapIdx
          (fun i p => (natToStr (i + 1) ++ ".") :: " " :: p.2), pa2)) ∧
    (∀ st, aGet pa "start" = some st →
      ∃ pa2, dumpItems pa items =
        some (items.mapIdx
          (fun i p => (iterFrom st i ++ ".") :: " " :: p.2), pa2)) := by
  constructor
  · intro hstart
    cases items with
    | nil => exact ⟨pa, rfl⟩
    | cons p rest =>
        obtain ⟨a, strs⟩ := p
        have h1 : natToStr 1 = "1" := by decide
        have hli : dump_li_numbered pa strs =
            ((natToStr 1 ++ ".") :: " " :: strs,
              aSet pa "_iter" (natToStr 2)) := by
          rw [h1]
          have hinc : increase_list_iter "1" = some (natToStr 2) :=
            h1 ▸ increase_natToStr 1
          simp [dump_li_numbered, nextIter, hiter, hstart, hinc,
            natToStr_ne_empty 2]
        obtain ⟨pa2, hrest⟩ := dumpItems_counter rest
          (aSet pa "_iter" (natToStr 2)) 2 (aGet_aSet pa "_iter" (natToStr 2))
        have hfun : (fun i (p : Attrib × List String) =>
              (natToStr (2 + i) ++ ".") :: " " :: p.2)
            = (fun i (p : Attrib × List String) =>
              (natToStr (i + 1 + 1) ++ ".") :: " " :: p.2) := by
          funext i p
          have h : 2 + i = i + 1 + 1 := by omega
          rw [h]
        rw [hfun] at hrest
        refine ⟨pa2, ?_⟩
        simp [dumpItems, dump_li_numbered_branch, hli, hrest, List.mapIdx_cons]
  · intro st hstart
    cases items with
    | nil => exact ⟨pa, rfl⟩
    | cons p rest =>
        obtain ⟨a, strs⟩ := p
        have hli : dump_li_numbered pa strs =
            ((st ++ ".") :: " " :: strs, aSet pa "_iter" (nextIter st)) := by
          simp [dump_li_numbered, hiter, hstart]
        obtain ⟨pa2, hrest⟩ := dumpItems_chain rest
          (aSet pa "_iter" (nextIter st)) (nextIter st)
          (nextIter_ne_empty st) (aGet_aSet pa "_iter" (nextIter st))
        refine ⟨pa2, ?_⟩
        simp [dumpItems, dump_li_numbered_branch, hli, hrest,
          List.mapIdx_cons, iterFrom]

theorem numbered_list_bullets_witness :
    (aGet ([] : Attrib) "_iter" = none ∧
      ∃ pa2, dumpItems []
          ([([], ["a\n"]), ([], ["b\n"]), ([], ["c\n"])] :
            List (Attrib × List String)) =
        some (([([], ["a\n"]), ([], ["b\n"]), ([], ["c\n"])] :
            List (Attrib × List String)).mapIdx
          (fun i p => (natToStr (i + 1) ++ ".") :: " " :: p.2), pa2)) ∧
    (([([], ["a\n"]), ([], ["b\n"]), ([], ["c\n"])] :
        List (Attrib × List String)).mapIdx
        (fun i p => (natToStr (i + 1) ++ ".") :: " " :: p.2) =
      [["1.", " ", "a\n"], ["2.", " ", "b\n"], ["3.", " ", "c\n"]]) ∧
    (aGet [("start", "5")] "_iter" = none ∧
      aGet [("start", "5")] "start" = some "5" ∧
      ∃ pa2, dumpItems [("start", "5")]
          ([([], ["a\n"]), ([], ["b\n"]), ([], ["c\n"])] :
            List (Attrib × List String)) =
        some (([([], ["a\n"]), ([], ["b\n"]), ([], ["c\n"])] :
            List (Attrib × List String)).mapIdx
          (fun i p => (iterFrom "5" i ++ ".") :: " " :: p.2), pa2)) ∧
    (([([], ["a\n"]), ([], ["b\n"]), ([], ["c\n"])] :
        List (Attrib × List String)).mapIdx
        (fun i p => (iterFrom "5" i ++ ".") :: " " :: p.2) =
      [["5.", " ", "a\n"], ["6.", " ", "b\n"], ["7.", " ", "c\n"]]) :=
  ⟨⟨by decide,
    (numbered_list_bullets
      ([([], ["a\n"]), ([], ["b\n"]), ([], ["c\n"])] :
        List (Attrib × List String)) []
      (by decide)).1 (by decide)⟩,
   by decide,
   ⟨by decide, by decide,
    (numbered_list_bullets
      ([([], ["a\n"]), ([], ["b\n"]), ([], ["c\n"])] :
        List (Attrib × List String)) [("start", "5")]
      (by decide)).2 "5" (by decide)⟩,
   by decide⟩

theorem strMk_toList (s : String) : String.mk s.toList = s := by
  cases s
  rfl

theorem regexRunF_shape : ∀ f cs nd, nd ∈ regexRunF f cs → goodNode nd := by
  intro f
  induction f with
  | zero =>
      intro cs nd h
      simp only [regexRunF, List.mem_singleton] at h
      exact Or.inl ⟨_, h⟩
  | succ f ih =>
      intro cs nd h
      simp only [regexRunF] at h
      cases hm : findMatch cs with
      | none =>
          rw [hm] at h
          simp only [List.mem_singleton] at h
          exact Or.inl ⟨_, h⟩
      | some bmr =>
          obtain ⟨b, m, r⟩ := bmr
          rw [hm] at h
          simp only [List.mem_append, List.mem_cons] at h
          rcases h with h | h | h
          · by_cases hb : b.isEmpty
            · simp [hb] at h
            · simp only [hb, if_neg, Bool.false_eq_true, ite_false,
                List.mem_singleton] at h
              exact Or.inl ⟨_, h⟩
          · exact Or.inr ⟨String.mk m, h⟩
          · exact ih r nd h

/-- C8: the plain-text `Parser` is total on every input, whether a
single string or a sequence of fragments concatenated before
processing, and always produces a single formatted-text root whose
children are recognized link nodes and literal text runs. -/
theorem parser_never_fails (input : String) (fragments : List String) :
    parseFragments fragments = parse (String.join fragments) ∧
    ∃ cs, parse input = Node.elem FORMATTEDTEXT [] cs ∧
      ∀ nd ∈ cs, goodNode nd := by
  refine ⟨rfl, ?_⟩
  unfold parse
  refine ⟨_, rfl, ?_⟩
  intro nd h
  by_cases he : (fix_unicode_whitespace input).isEmpty
  · rw [if_pos he] at h
    simp at h
  · rw [if_neg he] at h
    exact regexRunF_shape _ _ nd h

theorem parse_no_match (s : String)
    (h : findMatch (fix_unicode_whitespace s).toList = none) :
    parse s = Node.elem FORMATTEDTEXT []
      (if (fix_unicode_whitespace s).isEmpty then []
       else [Node.text (fix_unicode_whitespace s)]) := by
  simp only [parse]
  by_cases he : (fix_unicode_whitespace s).isEmpty
  · rw [if_pos he, if_pos he]
  · rw [if_neg he, if_neg he]
    simp only [regexRunF, h]
    rw [strMk_toList]

theorem dumpTree_root_empty :
    dumpTree (Node.elem FORMATTEDTEXT [] []) =
      some ([], Node.elem FORMATTEDTEXT [] []) := by
  rfl

theorem dumpTree_root_text (s' : String) :
    dumpTree (Node.elem FORMATTEDTEXT [] [Node.text s']) =
      some ([s'], Node.elem FORMATTEDTEXT [] [Node.text s']) := by
  show (dumpChildF (nodeSize (Node.elem FORMATTEDTEXT [] [Node.text s']) + 2)
    "" [] (Node.elem FORMATTEDTEXT [] [Node.text s'])).map
      (fun x => (x.1, x.2.2)) = _
  have hsz : nodeSize (Node.elem FORMATTEDTEXT [] [Node.text s']) + 2 =
      (nodeSize (Node.elem FORMATTEDTEXT [] [Node.text s']) + 1) + 1 := rfl
  rw [hsz]
  simp [dumpChildF, dumpKidsWith, applyHandler]

/-- C1 counterexample: the input made of `a`, the unicode line
separator, and `b` contains no bare-URL match (before or after
normalization), yet parsing and dumping it yields the normalized
string, not the original one. -/
theorem roundtrip_unicode_ws_counterexample :
    findMatch ("a b").toList = none ∧
    findMatch (fix_unicode_whitespace "a b").toList = none ∧
    dumpString (parse "a b") = some "a\nb" ∧
    ("a\nb" : String) ≠ "a b" :=
  ⟨by decide, by decide, by decide, by decide⟩

/-- C1 amended: for every input string whose normalized form contains
no bare-URL match, parsing with the plain-text `Parser` and dumping
with the plain-text `Dumper` yields `fix_unicode_whitespace` of the
input; this equals the input itself exactly when the input is fixed
under the whitespace normalization, which replaces non-canonical
space and line-separator characters before any pattern matching. -/
theorem parse_dump_literal_roundtrip (s : String)
    (hnol : findMatch (fix_unicode_whitespace s).toList = none) :
    dumpString (parse s) = some (fix_unicode_whitespace s) ∧
    (fix_unicode_whitespace s = s → dumpString (parse s) = some s) := by
  have h1 := parse_no_match s hnol
  have hmain : dumpString (parse s) = some (fix_unicode_whitespace s) := by
    by_cases he : (fix_unicode_whitespace s).isEmpty
    · rw [dumpString, h1, if_pos he, dumpTree_root_empty]
      have he2 : fix_unicode_whitespace s = "" :=
        (String.isEmpty_iff (fix_unicode_whitespace s)).mp he
      rw [he2]
      rfl
    · rw [dumpString, h1, if_neg he, dumpTree_root_text]
      simp [String.join]
  exact ⟨hmain, fun hfix => by rw [hmain, hfix]⟩

theorem parse_dump_literal_roundtrip_witness :
    (findMatch (fix_unicode_whitespace "just plain text").toList = none ∧
      fix_unicode_whitespace "just plain text" = "just plain text") ∧
    dumpString (parse "just plain text") = some "just plain text" :=
  ⟨⟨by decide, by decide⟩,
   (parse_dump_literal_roundtrip "just plain text" (by decide)).2 (by decide)⟩

theorem dump_li_preserves (pt : String) (pa a : Attrib) (strs out : List String)
    (pa2 : Attrib) (hpt : pt ≠ NUMBEREDLIST)
    (h : dump_li pt pa a strs = some (out, pa2)) : pa2 = pa := by
  unfold dump_li at h
  by_cases h1 : pt = BULLETLIST
  · rw [if_pos h1] at h
    simp only [Option.some.injEq, Prod.mk.injEq] at h
    exact h.2.symm
  · rw [if_neg h1, if_neg hpt] at h
    dsimp only at h
    split at h
    · exact absurd h (by simp)
    · split at h
      · exact absurd h (by simp)
      · simp only [Option.some.injEq, Prod.mk.injEq] at h
        exact h.2.symm

set_option maxHeartbeats 1000000 in
theorem applyHandler_preserves (pt : String) (pa : Attrib) (t : String)
    (a : Attrib) (strs out : List String) (pa2 : Attrib)
    (hpt : pt ≠ NUMBEREDLIST)
    (h : applyHandler pt pa t a strs = some (out, pa2)) : pa2 = pa := by
  unfold applyHandler at h
  split_ifs at h
  all_goals
    first
      | (simp only [Option.some.injEq, Prod.mk.injEq] at h
         exact h.2.symm)
      | (simp only [Option.map_eq_some'] at h
         obtain ⟨o, -, ho⟩ := h
         simp only [Prod.mk.injEq] at ho
         exact ho.2.symm)
      | exact dump_li_preserves pt pa a strs out pa2 hpt h

theorem dumpKids_preserves (f : Nat) (t : String)
    (ih : ∀ (pt : String) (pa : Attrib) (c : Node) (o : List String)
      (pa2 : Attrib) (c2 : Node), pt ≠ NUMBEREDLIST → NoOl c →
      dumpChildF f pt pa c = some (o, pa2, c2) → pa2 = pa ∧ c2 = c)
    (ht : t ≠ NUMBEREDLIST) :
    ∀ (cs : List Node) (a : Attrib) (strs : List String) (a2 : Attrib)
      (cs2 : List Node), (∀ c ∈ cs, NoOl c) →
    dumpKidsWith (fun a' c => dumpChildF f t a' c) a cs = some (strs, a2, cs2) →
    a2 = a ∧ cs2 = cs := by
  intro cs
  induction cs with
  | nil =>
      intro a strs a2 cs2 _ h
      simp only [dumpKidsWith, Option.some.injEq, Prod.mk.injEq] at h
      exact ⟨h.2.1.symm, h.2.2.symm⟩
  | cons c cs ihcs =>
      intro a strs a2 cs2 hnol h
      simp only [dumpKidsWith] at h
      cases hc : dumpChildF f t a c with
      | none => rw [hc] at h; simp at h
      | some x =>
          obtain ⟨s1, a1, c1⟩ := x
          rw [hc] at h
          dsimp only at h
          cases hcs : dumpKidsWith (fun a' c => dumpChildF f t a' c) a1 cs with
          | none => rw [hcs] at h; simp at h
          | some y =>
              obtain ⟨s2, a2', cs2'⟩ := y
              rw [hcs] at h
              dsimp only at h
              simp only [Option.some.injEq, Prod.mk.injEq] at h
              obtain ⟨-, ha2, hcs2⟩ := h
              have h1 := ih t a c s1 a1 c1 ht (hnol c (List.mem_cons_self c cs)) hc
              have h2 := ihcs a1 s2 a2' cs2'
                (fun x hx => hnol x (List.mem_cons_of_mem c hx)) hcs
              refine ⟨?_, ?_⟩
              · rw [← ha2, h2.1, h1.1]
              · rw [← hcs2, h2.2, h1.2]

theorem dumpChildF_preserves : ∀ (f : Nat) (pt : String) (pa : Attrib)
    (nd : Node) (o : List String) (pa2 : Attrib) (nd2 : Node),
    pt ≠ NUMBEREDLIST → NoOl nd →
    dumpChildF f pt pa nd = some (o, pa2, nd2) → pa2 = pa ∧ nd2 = nd := by
  intro f
  induction f with
  | zero =>
      intro pt pa nd o pa2 nd2 _ _ h
      simp [dumpChildF] at h
  | succ f ih =>
      intro pt pa nd o pa2 nd2 hpt hnol h
      cases nd with
      | text s =>
          simp only [dumpChildF, Option.some.injEq, Prod.mk.injEq] at h
          exact ⟨h.2.1.symm, h.2.2.symm⟩
      | elem t a cs =>
          cases hnol with
          | elem _ _ _ ht hcs =>
              simp only [dumpChildF] at h
              cases hk : dumpKidsWith (fun a' c => dumpChildF f t a' c) a cs with
              | none => rw [hk] at h; simp at h
              | some x =>
                  obtain ⟨strs, a2, cs2⟩ := x
                  rw [hk] at h
                  dsimp only at h
                  cases hh : applyHandler pt pa t a2 strs with
                  | none => rw [hh] at h; simp at h
                  | some y =>
                      obtain ⟨out, pa2'⟩ := y
                      rw [hh] at h
                      dsimp only at h
                      simp only [Option.some.injEq, Prod.mk.injEq] at h
                      obtain ⟨ho, hpa2, hnd2⟩ := h
                      have hkp := dumpKids_preserves f t
                        (fun pt' pa' c o' pa2'' c2 => ih pt' pa' c o' pa2'' c2)
                        ht cs a strs a2 cs2 hcs hk
                      have hap := applyHandler_preserves pt pa t a2 strs out
                        pa2' hpt hh
                      refine ⟨by rw [← hpa2, hap], ?_⟩
                      rw [← hnd2, hkp.1, hkp.2]

/-- C9 counterexample: dumping the same tree twice in succession is
not identical when the tree contains a numbered list; the counter
stored in the list node's own attribute mapping persists into the
tree, so the second dump continues numbering where the first
stopped. -/
theorem dump_twice_counter_leak_counterexample :
    (dumpTree (Node.elem FORMATTEDTEXT [] [Node.elem NUMBEREDLIST []
        [Node.elem LISTITEM [] [Node.text "a\n"],
         Node.elem LISTITEM [] [Node.text "b\n"]]])).map (fun x => x.1) =
      some ["1.", " ", "a\n", "2.", " ", "b\n"] ∧
    ((dumpTree (Node.elem FORMATTEDTEXT [] [Node.elem NUMBEREDLIST []
        [Node.elem LISTITEM [] [Node.text "a\n"],
         Node.elem LISTITEM [] [Node.text "b\n"]]])).bind
      (fun x => dumpTree x.2)).map (fun x => x.1) =
      some ["3.", " ", "a\n", "4.", " ", "b\n"] ∧
    some ["1.", " ", "a\n", "2.", " ", "b\n"] ≠
      some ["3.", " ", "a\n", "4.", " ", "b\n"] :=
  ⟨by decide, by decide, by decide⟩

/-- C9 amended: dump calls are independent only for trees without
numbered lists: for such trees the walk leaves the tree unchanged, so
dumping twice in succession produces identical output.  For trees with
numbered lists the counter stored in the list node's own attribute
mapping persists from one dump invocation into the next (see the
counterexample). -/
theorem dump_twice_no_numbered_list (t : Node) (hnol : NoOl t)
    (o : List String) (t2 : Node) (h : dumpTree t = some (o, t2)) :
    t2 = t ∧ dumpTree t2 = some (o, t2) := by
  have h0 := h
  unfold dumpTree at h
  simp only [Option.map_eq_some'] at h
  obtain ⟨⟨o', pa2, t2'⟩, hd, heq⟩ := h
  simp only [Prod.mk.injEq] at heq
  have hp := dumpChildF_preserves (nodeSize t + 2) "" [] t o' pa2 t2'
    (by decide) hnol hd
  have ht2 : t2 = t := by rw [← heq.2, hp.2]
  refine ⟨ht2, ?_⟩
  rw [ht2] at h0 ⊢
  exact h0

theorem dump_twice_no_numbered_list_witness :
    dumpTree (Node.elem FORMATTEDTEXT [] [Node.text "plain"]) =
      some (["plain"], Node.elem FORMATTEDTEXT [] [Node.text "plain"]) :=
  (dump_twice_no_numbered_list (Node.elem FORMATTEDTEXT [] [Node.text "plain"])
    (NoOl.elem _ _ _ (by decide)
      (by
        intro c hc
        rw [List.mem_singleton] at hc
        subst hc
        exact NoOl.text _))
    ["plain"] (Node.elem FORMATTEDTEXT [] [Node.text "plain"])
    (dumpTree_root_text "plain")).2

theorem len_strRep (c : Char) (n : Nat) : (strRep c n).length = n := by
  simp [strRep, String.length]

theorem len_spaces (n : Nat) : (spaces n).length = n := len_strRep ' ' n

theorem convertRow_line_len (row : List String) (l : List String)
    (hl : l ∈ convertRow row) : l.length = row.length := by
  simp only [convertRow, List.mem_map, List.mem_range] at hl
  obtain ⟨i, -, rfl⟩ := hl
  simp

theorem foldl_foldl_flatten (rows : List (List (List String)))
    (init : List Nat) :
    rows.foldl (fun acc row => row.foldl zipMax acc) init =
      (rows.flatMap id).foldl zipMax init := by
  induction rows generalizing init with
  | nil => rfl
  | cons row rest ih =>
      simp only [List.foldl_cons, List.flatMap_cons, List.foldl_append, id]
      exact ih (row.foldl zipMax init)

theorem zipMax_len : ∀ (ws : List Nat) (cs : List String),
    (zipMax ws cs).length = max ws.length cs.length := by
  intro ws
  induction ws with
  | nil =>
      intro cs
      induction cs with
      | nil => rfl
      | cons c cs ih => simp [zipMax, ih]
  | cons w ws ih =>
      intro cs
      cases cs with
      | nil => simp [zipMax]
      | cons c cs => simp [zipMax, ih cs]; omega

theorem zipMax_le_left : ∀ (ws : List Nat) (cs : List String) (j : Nat),
    ws.getD j 0 ≤ (zipMax ws cs).getD j 0 := by
  intro ws
  induction ws with
  | nil => intro cs j; simp
  | cons w ws ih =>
      intro cs j
      cases cs with
      | nil => simp [zipMax]
      | cons c cs =>
          cases j with
          | zero => simp [zipMax]
          | succ j => simpa [zipMax] using ih cs j

theorem zipMax_le_right : ∀ (ws : List Nat) (cs : List String) (j : Nat),
    j < cs.length → (cs.getD j "").length ≤ (zipMax ws cs).getD j 0 := by
  intro ws
  induction ws with
  | nil =>
      intro cs
      induction cs with
      | nil => intro j h; simp at h
      | cons c cs ih =>
          intro j h
          cases j with
          | zero => simp [zipMax]
          | succ j => simpa [zipMax] using ih j (by simpa using h)
  | cons w ws ih =>
      intro cs j h
      cases cs with
      | nil => simp at h
      | cons c cs =>
          cases j with
          | zero => simp [zipMax]
          | succ j => simpa [zipMax] using ih cs j (by simpa using h)

theorem foldl_zipMax_le_acc : ∀ (lines : List (List String)) (acc : List Nat)
    (j : Nat), acc.getD j 0 ≤ (lines.foldl zipMax acc).getD j 0 := by
  intro lines
  induction lines with
  | nil => intro acc j; simp
  | cons l rest ih =>
      intro acc j
      calc acc.getD j 0 ≤ (zipMax acc l).getD j 0 := zipMax_le_left acc l j
        _ ≤ _ := ih (zipMax acc l) j

theorem foldl_zipMax_bound : ∀ (lines : List (List String))
    (acc : List Nat) (l : List String), l ∈ lines → ∀ j, j < l.length →
    (l.getD j "").length ≤ (lines.foldl zipMax acc).getD j 0 := by
  intro lines
  induction lines with
  | nil => intro acc l hl; simp at hl
  | cons l0 rest ih =>
      intro acc l hl j hj
      rcases List.mem_cons.mp hl with rfl | hl
      · calc (l.getD j "").length ≤ (zipMax acc l).getD j 0 :=
              zipMax_le_right acc l j hj
          _ ≤ _ := foldl_zipMax_le_acc rest (zipMax acc l) j
      · exact ih (zipMax acc l0) l hl j hj

theorem foldl_zipMax_len : ∀ (lines : List (List String)) (acc : List Nat)
    (k : Nat), (∀ l ∈ lines, l.length = k) → acc.length ≤ k →
    (lines.foldl zipMax acc).length = if lines.isEmpty then acc.length else k := by
  intro lines
  induction lines with
  | nil => intro acc k _ _; simp
  | cons l rest ih =>
      intro acc k hk hacc
      have hl : l.length = k := hk l (List.mem_cons_self l rest)
      have hz : (zipMax acc l).length = k := by
        rw [zipMax_len, hl]
        omega
      have := ih (zipMax acc l) k
        (fun x hx => hk x (List.mem_cons_of_mem l hx)) (le_of_eq hz)
      simp only [List.foldl_cons, this, List.isEmpty_cons, hz]
      split <;> rfl

theorem len_one_space : (" " : String).length = 1 := by decide

theorem len_pipe : ("|" : String).length = 1 := by decide

theorem cellRender_len (c : String) (w : Nat) (al : String)
    (h : c.length ≤ w) : (cellRender c w al).length = w + 2 := by
  unfold cellRender
  split_ifs <;>
    (simp [String.length_append, len_spaces, len_one_space]; omega)

theorem rowcells_lens : ∀ (row : List String) (ws : List Nat)
    (als : List String), row.length = ws.length →
    (∀ j, j < row.length → (row.getD j "").length ≤ ws.getD j 0) →
    (rowcells row ws als).map String.length = ws.map (fun w => w + 2) := by
  intro row
  induction row with
  | nil =>
      intro ws als hlen _
      cases ws with
      | nil => rfl
      | cons w ws => simp at hlen
  | cons c row ih =>
      intro ws als hlen hb
      cases ws with
      | nil => simp at hlen
      | cons w ws =>
          have hc : c.length ≤ w := by
            have := hb 0 (by simp)
            simpa using this
          have hrest : ∀ j, j < row.length → (row.getD j "").length ≤ ws.getD j 0 := by
            intro j hj
            have := hb (j + 1) (by simpa using Nat.succ_lt_succ hj)
            simpa using this
          have hlen' : row.length = ws.length := by simpa using hlen
          cases als with
          | nil =>
              simp only [rowcells, List.map_cons, cellRender_len c w _ hc,
                ih ws [] hlen' hrest]
          | cons al als =>
              simp only [rowcells, List.map_cons, cellRender_len c w _ hc,
                ih ws als hlen' hrest]

theorem joinSep_len : ∀ (sep : String) (l : List String),
    (joinSep sep l).length =
      (l.map String.length).sum + (l.length - 1) * sep.length := by
  intro sep l
  induction l with
  | nil => simp [joinSep]
  | cons s rest ih =>
      cases rest with
      | nil => simp [joinSep]
      | cons s2 rest2 =>
          simp only [joinSep, String.length_append, ih, List.map_cons,
            List.sum_cons, List.length_cons, Nat.add_sub_cancel]
          ring

theorem rowsep_len (ws : List Nat) (x y : Char) :
    (rowsep ws x y).length =
      2 + ((ws.map (fun w => w + 2)).sum + (ws.length - 1)) := by
  unfold rowsep
  rw [String.length_append, String.length_append, joinSep_len]
  have h1 : (String.singleton x).length = 1 := rfl
  have h2 : (ws.map (fun n => strRep y (n + 2))).map String.length =
      ws.map (fun w => w + 2) := by
    rw [List.map_map]
    exact List.map_congr_left (fun n _ => len_strRep y (n + 2))
  rw [h1, h2]
  simp
  omega

theorem rowline_len_eq_rowsep (row : List String) (ws : List Nat)
    (als : List String) (x y : Char) (hlen : row.length = ws.length)
    (hb : ∀ j, j < row.length → (row.getD j "").length ≤ ws.getD j 0) :
    (rowline row ws als).length = (rowsep ws x y).length := by
  unfold rowline
  rw [String.length_append, String.length_append, joinSep_len,
    rowcells_lens row ws als hlen hb, rowsep_len]
  have hc : (rowcells row ws als).length = ws.length := by
    have := congrArg List.length (rowcells_lens row ws als hlen hb)
    simpa using this
  rw [hc]
  simp [len_pipe]
  omega

/-- C5: for every table with at least one header row and rectangular
rows, the dumped ASCII output is a `+`-joined `-`-separator, the
header lines, a `+`-joined `=`-separator, then each body row's lines
each followed by a `-`-separator, each line's cells padded to the
column's maximum width according to the column's declared alignment
(`rowline`), and every output line has the same total width. -/
theorem dump_table_layout (attrib : Attrib) (strings : List (List String))
    (k : Nat) (hne : strings ≠ []) (hk : ∀ row ∈ strings, row.length = k) :
    ∃ out hdr body,
      convert_to_multiline_cells strings = hdr :: body ∧
      dump_table attrib strings = some out ∧
      out = (rowsep (width3dim (hdr :: body)) '+' '-' ::
          hdr.map (fun l =>
            rowline l (width3dim (hdr :: body)) (get_options attrib))
        ++ rowsep (width3dim (hdr :: body)) '+' '=' ::
          body.flatMap (fun row =>
            row.map (fun l =>
              rowline l (width3dim (hdr :: body)) (get_options attrib))
            ++ [rowsep (width3dim (hdr :: body)) '+' '-'])).map
          (fun l => l ++ "\n") ∧
      ∀ l1 ∈ out, ∀ l2 ∈ out, l1.length = l2.length := by
  obtain ⟨r0, rest, rfl⟩ : ∃ r0 rest, strings = r0 :: rest := by
    cases strings with
    | nil => exact absurd rfl hne
    | cons a b => exact ⟨a, b, rfl⟩
  have hrows : convert_to_multiline_cells (r0 :: rest) =
      convertRow r0 :: rest.map convertRow := rfl
  refine ⟨_, convertRow r0, rest.map convertRow, rfl, rfl, rfl, ?_⟩
  have hwidth : width3dim (convert_to_multiline_cells (r0 :: rest)) =
      ((convert_to_multiline_cells (r0 :: rest)).flatMap id).foldl zipMax [] :=
    foldl_foldl_flatten _ []
  have lineLen : ∀ l ∈ (convert_to_multiline_cells (r0 :: rest)).flatMap id,
      l.length = k := by
    intro l hl
    obtain ⟨rl, hrl, hl2⟩ := List.mem_flatMap.mp hl
    obtain ⟨row, hrow, rfl⟩ := List.mem_map.mp hrl
    exact (convertRow_line_len row l hl2).trans (hk row hrow)
  have mwlen : ∀ l ∈ (convert_to_multiline_cells (r0 :: rest)).flatMap id,
      (width3dim (convert_to_multiline_cells (r0 :: rest))).length = k := by
    intro l hl
    rw [hwidth]
    have hne2 : ((convert_to_multiline_cells (r0 :: rest)).flatMap id) ≠ [] :=
      List.ne_nil_of_mem hl
    rw [foldl_zipMax_len _ [] k lineLen (Nat.zero_le k)]
    simp only [List.isEmpty_iff]
    rw [if_neg hne2]
  have bound : ∀ l ∈ (convert_to_multiline_cells (r0 :: rest)).flatMap id,
      ∀ j, j < l.length → (l.getD j "").length ≤
        (width3dim (convert_to_multiline_cells (r0 :: rest))).getD j 0 := by
    intro l hl j hj
    rw [hwidth]
    exact foldl_zipMax_bound _ [] l hl j hj
  have key : ∀ x ∈ (rowsep (width3dim (convert_to_multiline_cells (r0 :: rest)))
        '+' '-' ::
        (convertRow r0).map (fun l =>
          rowline l (width3dim (convert_to_multiline_cells (r0 :: rest)))
            (get_options attrib))
      ++ rowsep (width3dim (convert_to_multiline_cells (r0 :: rest))) '+' '=' ::
        (rest.map convertRow).flatMap (fun row =>
          row.map (fun l =>
            rowline l (width3dim (convert_to_multiline_cells (r0 :: rest)))
              (get_options attrib))
          ++ [rowsep (width3dim (convert_to_multiline_cells (r0 :: rest)))
            '+' '-'])),
      x.length = (rowsep (width3dim (convert_to_multiline_cells (r0 :: rest)))
        '+' '-').length := by
    have hline : ∀ l ∈ (convert_to_multiline_cells (r0 :: rest)).flatMap id,
        (rowline l (width3dim (convert_to_multiline_cells (r0 :: rest)))
          (get_options attrib)).length =
        (rowsep (width3dim (convert_to_multiline_cells (r0 :: rest)))
          '+' '-').length := by
      intro l hl
      exact rowline_len_eq_rowsep l _ _ '+' '-'
        ((lineLen l hl).trans (mwlen l hl).symm) (bound l hl)
    intro x hx
    rcases List.mem_cons.mp hx with rfl | hx
    · rfl
    rcases List.mem_append.mp hx with hx | hx
    · obtain ⟨l, hl, rfl⟩ := List.mem_map.mp hx
      refine hline l (List.mem_flatMap.mpr ⟨convertRow r0, ?_, hl⟩)
      rw [hrows]
      exact List.mem_cons_self _ _
    rcases List.mem_cons.mp hx with rfl | hx
    · rw [rowsep_len, rowsep_len]
    obtain ⟨row, hrow, hx⟩ := List.mem_flatMap.mp hx
    rcases List.mem_append.mp hx with hx | hx
    · obtain ⟨l, hl, rfl⟩ := List.mem_map.mp hx
      refine hline l (List.mem_flatMap.mpr ⟨row, ?_, hl⟩)
      rw [hrows]
      exact List.mem_cons_of_mem _ hrow
    · rw [List.mem_singleton.mp hx]
  intro l1 h1 l2 h2
  obtain ⟨x1, hx1, rfl⟩ := List.mem_map.mp h1
  obtain ⟨x2, hx2, rfl⟩ := List.mem_map.mp h2
  rw [String.length_append, String.length_append, key x1 hx1, key x2 hx2]

theorem dump_table_layout_witness :
    ((([["H1", "H2"], ["a", "bb"], ["ccc", "d"]] : List (List String)) ≠ []) ∧
      (∀ row ∈ ([["H1", "H2"], ["a", "bb"], ["ccc", "d"]] :
        List (List String)), row.length = 2)) ∧
    (∃ out hdr body,
      convert_to_multiline_cells [["H1", "H2"], ["a", "bb"], ["ccc", "d"]] =
        hdr :: body ∧
      dump_table [] [["H1", "H2"], ["a", "bb"], ["ccc", "d"]] = some out ∧
      out = (rowsep (width3dim (hdr :: body)) '+' '-' ::
          hdr.map (fun l => rowline l (width3dim (hdr :: body)) (get_options []))
        ++ rowsep (width3dim (hdr :: body)) '+' '=' ::
          body.flatMap (fun row =>
            row.map (fun l => rowline l (width3dim (hdr :: body)) (get_options []))
            ++ [rowsep (width3dim (hdr :: body)) '+' '-'])).map
          (fun l => l ++ "\n") ∧
      ∀ l1 ∈ out, ∀ l2 ∈ out, l1.length = l2.length) ∧
    dump_table [] [["H1", "H2"], ["a", "bb"], ["ccc", "d"]] =
      some ["+-----+----+\n", "| H1  | H2 |\n", "+=====+====+\n",
        "| a   | bb |\n", "+-----+----+\n", "| ccc | d  |\n", "+-----+----+\n"] :=
  ⟨⟨by decide, by decide⟩,
   dump_table_layout [] [["H1", "H2"], ["a", "bb"], ["ccc", "d"]] 2
     (by decide) (by decide),
   by decide⟩

end ZimPlain
